import Mathlib

set_option maxHeartbeats 4000000
set_option maxRecDepth 100000

namespace MetaMeme

/-! Model of the IEEE binary64 arithmetic used by the Muse rules of
`lambda-calculus-core`.  Every f64 value occurring in the program is a
rational number in the normal range, so f64 operations are modelled as
exact fraction operations followed by rounding to 53 significant binary
digits, round to nearest with ties to even.  A value is represented as a
fraction `num / den` (not necessarily in lowest terms, `den > 0`); all
comparisons cross-multiply, so they only depend on the value.

The combinators `natCase`, `intCase` and `fpCase` are semantically the
identity (`natCase n f = f n`, and so on); binding intermediate results
through them forces call-by-name kernel evaluation to compute each
intermediate number once instead of once per use. -/

/-- Strict binding of a natural number: semantically `f n`. -/
def natCase {α : Type} (n : ℕ) (f : ℕ → α) : α :=
  match n with
  | 0 => f 0
  | k + 1 => f (k + 1)

/-- Strict binding of an integer: semantically `f i`. -/
def intCase {α : Type} (i : ℤ) (f : ℤ → α) : α :=
  match i with
  | .ofNat k => f (.ofNat k)
  | .negSucc k => f (.negSucc k)

/-- A binary64 value, represented exactly as the fraction num / den. -/
structure Fp where
  num : ℤ
  den : ℕ
deriving DecidableEq

/-- Strict binding of a fraction: semantically `f x`. -/
def fpCase {α : Type} (x : Fp) (f : Fp → α) : α :=
  match x with
  | ⟨n, d⟩ => intCase n fun n2 => natCase d fun d2 => f ⟨n2, d2⟩

/-- One step of the binary search for the base-2 logarithm: widen the
accumulated exponent by `w` if the value still reaches `2 ^ (acc + w)`. -/
def log2step (n acc w : ℕ) : ℕ := if 2 ^ (acc + w) ≤ n then acc + w else acc

/-- Base-2 logarithm (floor) of a natural number, exact for `1 ≤ n < 2 ^ 256`,
by binary search over the exponent. -/
def log2bin (n : ℕ) : ℕ :=
  natCase (log2step n 0 128) fun a1 =>
  natCase (log2step n a1 64) fun a2 =>
  natCase (log2step n a2 32) fun a3 =>
  natCase (log2step n a3 16) fun a4 =>
  natCase (log2step n a4 8) fun a5 =>
  natCase (log2step n a5 4) fun a6 =>
  natCase (log2step n a6 2) fun a7 =>
  log2step n a7 1

/-- The binary64 exponent of the positive fraction `a / b`: the integer `e`
with `2 ^ e ≤ a / b < 2 ^ (e + 1)`, computed as the base-2 logarithm of
`a * 2 ^ 200 / b` shifted back by 200 (exact for values in `[2 ^ -200, 2 ^ 55]`,
which covers every value this program computes). -/
def rneExp (a b : ℕ) : ℤ :=
  natCase (log2bin (a * 2 ^ 200 / b)) fun l => (l : ℤ) - 200

/-- Rounds the positive fraction `a / b` to 53 significant binary digits,
round to nearest, ties to even, returning mantissa `m` and exponent `e`;
the rounded value is `m * 2 ^ (e - 52)`.  This is the nearest IEEE binary64
number for inputs in the normal range. -/
def rnePosME (a b : ℕ) : ℕ × ℤ :=
  intCase (rneExp a b) fun e =>
  intCase (52 - e) fun s =>
  natCase (a * 2 ^ s.toNat) fun N =>
  natCase (b * 2 ^ (-s).toNat) fun D =>
  natCase (N / D) fun m0 =>
  natCase (N % D) fun r =>
  (if 2 * r < D then m0
   else if D < 2 * r then m0 + 1
   else if m0 % 2 = 0 then m0 else m0 + 1, e)

/-- The dyadic value `m * 2 ^ k` as a fraction. -/
def dyadic (m : ℕ) (k : ℤ) : Fp :=
  if 0 ≤ k then ⟨(m * 2 ^ k.toNat : ℕ), 1⟩ else ⟨(m : ℤ), 2 ^ (-k).toNat⟩

/-- Rounds the positive fraction `a / b` to the nearest binary64 value. -/
def roundPos (a b : ℕ) : Fp :=
  match rnePosME a b with
  | (m, e) => natCase m fun m2 => intCase (e - 52) fun k => dyadic m2 k

/-- Rounds the fraction `num / den` to the nearest binary64 value. -/
def flF (num : ℤ) (den : ℕ) : Fp :=
  intCase num fun n =>
  if n = 0 then ⟨0, 1⟩
  else if 0 < n then roundPos n.toNat den
  else fpCase (roundPos (-n).toNat den) fun p => ⟨-p.num, p.den⟩

/-- f64 addition: exact sum, then rounding. -/
def fadd (x y : Fp) : Fp :=
  fpCase x fun a => fpCase y fun b =>
  flF (a.num * (b.den : ℤ) + b.num * (a.den : ℤ)) (a.den * b.den)

/-- f64 multiplication: exact product, then rounding. -/
def fmul (x y : Fp) : Fp :=
  fpCase x fun a => fpCase y fun b => flF (a.num * b.num) (a.den * b.den)

/-- f64 division: exact quotient, then rounding. -/
def fdiv (x y : Fp) : Fp :=
  fpCase x fun a => fpCase y fun b =>
  if 0 ≤ b.num then flF (a.num * (b.den : ℤ)) (a.den * b.num.toNat)
  else flF (-(a.num * (b.den : ℤ))) (a.den * (-b.num).toNat)

/-- f64 strict comparison `x < y`. -/
def flt (x y : Fp) : Bool := decide (x.num * (y.den : ℤ) < y.num * (x.den : ℤ))

/-- The f64 value of a u32 (exact, since u32 values are below 2 ^ 53). -/
def fofNat (n : ℕ) : Fp := ⟨(n : ℤ), 1⟩

/-- Value of the f64 literal 0.001. -/
def lit001 : Fp := roundPos 1 1000

/-- Value of the f64 literal 1.01. -/
def lit101 : Fp := roundPos 101 100

/-- The f64 literal 1000.0 (exact). -/
def lit1000 : Fp := ⟨1000, 1⟩

/-- The f64 literal 1.0 (exact). -/
def lit1 : Fp := ⟨1, 1⟩

/-- Conversion of an f64 value to u32 by Rust's `as` operator: truncation
toward zero, saturating at the ends of the u32 range. -/
def toU32 (x : Fp) : ℕ :=
  fpCase x fun a => if a.num ≤ 0 then 0 else min (a.num.toNat / a.den) (2 ^ 32 - 1)

/-- f64 clamp (Rust `f64::clamp`): if below `lo` take `lo`, if above `hi`
take `hi`, otherwise the value itself. -/
def fclamp (x lo hi : Fp) : Fp :=
  fpCase x fun a => if flt a lo then lo else if flt hi a then hi else a

/-! Embedding of `crates/lambda-calculus-core/src/lib.rs`. -/

/-- The expression type of the lambda calculus core (`enum Expr` in lib.rs).
The resonance of a Muse is a `u32` in the source; it is modelled as ℕ, and
every resonance the engine computes goes through `toU32`, which saturates
at the u32 range.  DNA bytes are modelled as naturals; they are inert and
only their count is ever read. -/
inductive Expr where
  | Var : String → Expr
  | Lambda : String → Expr → Expr
  | App : Expr → Expr → Expr
  | Sym : String → Expr
  | S : Expr
  | K : Expr
  | I : Expr
  | Muse : String → ℕ → Expr
  | Quine : Expr → Expr
  | DNA : List ℕ → Expr
deriving DecidableEq

/-- Textual rendering of an expression (`impl fmt::Display for Expr`).
The Muse arm of the source formats its u32 resonance with a two-digit
precision flag, but Rust ignores precision flags on integral types, so the
raw integer is printed. -/
def display : Expr → String
  | .Var name => name
  | .Lambda var body => "λ" ++ var ++ "." ++ display body
  | .App left right => "(" ++ display left ++ " " ++ display right ++ ")"
  | .Sym symbol => symbol
  | .S => "S"
  | .K => "K"
  | .I => "I"
  | .Muse name resonance => "🎭" ++ name ++ "[" ++ toString resonance ++ "]"
  | .Quine expr => "🌀Q(" ++ display expr ++ ")"
  | .DNA data => "🧬DNA[" ++ toString data.length ++ "]"

/-- Substitution (`LambdaEngine::substitute`): replace occurrences of `var`
by `replacement`, except under an abstraction whose parameter shadows
`var`; all variants other than Var, Lambda and App are left unchanged. -/
def substitute (body : Expr) (var : String) (replacement : Expr) : Expr :=
  match body with
  | .Var name => if name = var then replacement else body
  | .Lambda param lambdaBody =>
      if param = var then body
      else .Lambda param (substitute lambdaBody var replacement)
  | .App left right =>
      .App (substitute left var replacement) (substitute right var replacement)
  | _ => body

/-- The resonance computed by the Muse-application rule of `beta_reduce`:
`((resonance as f64 / 1000.0) * 1.01 * 1000.0) as u32`, then the
`Expr::muse` constructor turns `that as f64 / 1000.0` back into an integer
via `(x * 1000.0) as u32`. -/
def museAppRes (resonance : ℕ) : ℕ :=
  natCase (toU32 (fmul (fmul (fdiv (fofNat resonance) lit1000) lit101) lit1000)) fun t =>
  toU32 (fmul (fdiv (fofNat t) lit1000) lit1000)

/-- The standalone-Muse arm of `beta_reduce`: when `resonance / 1000.0 < 1.0`
the new resonance is `((resonance / 1000.0 + 0.001) * 1000.0) as u32`,
otherwise there is no step. -/
def museBareStep (resonance : ℕ) : Option ℕ :=
  fpCase (fdiv (fofNat resonance) lit1000) fun rf =>
  if flt rf lit1 then some (toU32 (fmul (fadd rf lit001) lit1000)) else none

/-- The variable environment (`HashMap<String, Expr>` in the source),
modelled by its lookup function. -/
abbrev Env : Type := String → Option Expr

/-- The congruence fallback that `beta_reduce` repeats textually in two of
its application arms: take the reduced left side if it reduced, else the
reduced right side, else report no change. -/
def reduceChildren (reducedLeft : Option Expr) (left : Expr)
    (reducedRight : Option Expr) (right : Expr) : Option Expr :=
  match reducedLeft with
  | some l2 => some (.App l2 right)
  | none =>
    match reducedRight with
    | some r2 => some (.App left r2)
    | none => none

/-- One step of reduction (`LambdaEngine::beta_reduce`).  Returns the
rewritten term, or none when no rule applies.  The source returns
`Result<Option<Expr>>` but never an error, so the embedding is total. -/
def beta_reduce (env : Env) : Expr → Option Expr
  | .Var name => env name
  | .Lambda _ _ => none
  | .App left right =>
    match left with
    | .Lambda param body => some (substitute body param right)
    | .S => some (.App (.App .S right) .I)
    | .K => some (.App .K right)
    | .I => some right
    | .App innerLeft innerRight =>
      match innerLeft with
      | .App .S f => some (.App (.App f right) (.App innerRight right))
      | .K => some innerRight
      | _ => reduceChildren (beta_reduce env left) left (beta_reduce env right) right
    | .Muse name resonance =>
        some (.Muse (name ++ "+" ++ display right) (museAppRes resonance))
    | .Quine inner => some (.Quine (.App inner right))
    | _ => reduceChildren (beta_reduce env left) left (beta_reduce env right) right
  | .S => none
  | .K => none
  | .I => none
  | .Sym _ => none
  | .DNA _ => none
  | .Muse name resonance =>
    match museBareStep resonance with
    | some newResonance => some (.Muse name newResonance)
    | none => none
  | .Quine inner => some inner

/-- The reduction trace produced by `normalize` (`struct ReductionTrace`). -/
structure ReductionTrace where
  steps : List String
  step_count : ℕ
  final_form : Expr
  is_normal_form : Bool
deriving DecidableEq

/-- The engine state `normalize` reads (`struct LambdaEngine`): the step
budget and the environment.  The trace the source engine stores is returned
inside the ReductionTrace here instead of being kept in the engine. -/
structure LambdaEngine where
  max_steps : ℕ
  environment : Env

/-- `LambdaEngine::new`: budget 1000 and an empty environment. -/
def LambdaEngine.new : LambdaEngine := ⟨1000, fun _ => none⟩

/-- The while loop of `LambdaEngine::normalize`.  The fuel equals
`max_steps - step_count`, so the loop runs while `step_count < max_steps`
and `beta_reduce` still makes a step, appending each new term to the
trace. -/
def normalizeLoop (env : Env) : ℕ → Expr → ℕ → List Expr → Expr × ℕ × List Expr
  | 0, current, count, trace => (current, count, trace)
  | fuel + 1, current, count, trace =>
    match beta_reduce env current with
    | some reduced => normalizeLoop env fuel reduced (count + 1) (trace ++ [reduced])
    | none => (current, count, trace)

/-- `LambdaEngine::normalize`: iterate `beta_reduce` to a fixed point or up
to `max_steps` steps, render the trace, and report
`is_normal_form = step_count < max_steps`. -/
def normalize (engine : LambdaEngine) (expr : Expr) : ReductionTrace :=
  { steps := (normalizeLoop engine.environment engine.max_steps expr 0 [expr]).2.2.map display
    step_count := (normalizeLoop engine.environment engine.max_steps expr 0 [expr]).2.1
    final_form := (normalizeLoop engine.environment engine.max_steps expr 0 [expr]).1
    is_normal_form :=
      decide ((normalizeLoop engine.environment engine.max_steps expr 0 [expr]).2.1
        < engine.max_steps) }

/-- The n-th iterate of the one-step rewrite, staying put once no rule
applies (used to state properties of the normalize loop). -/
def iterN (env : Env) : ℕ → Expr → Expr
  | 0, e => e
  | n + 1, e => iterN env n ((beta_reduce env e).getD e)

/-- Checks that every Muse resonance inside a term is at most `bound`. -/
def museLeB (bound : ℕ) : Expr → Bool
  | .Lambda _ body => museLeB bound body
  | .App left right => museLeB bound left && museLeB bound right
  | .Muse _ resonance => decide (resonance ≤ bound)
  | .Quine inner => museLeB bound inner
  | _ => true

/-- `LambdaEngine::create_quine`: the self-application combinator applied to
an abstraction wrapping the seed symbol, inside a Quine wrapper. -/
def create_quine (seed : String) : Expr :=
  let selfRef : Expr := .Lambda "x" (.App (.Var "x") (.Var "x"))
  let quineBody : Expr := .App selfRef (.Lambda "y" (.App (.Sym seed) (.Var "y")))
  .Quine quineBody

/-- The draws the thread rng can produce, one stream per call-site type:
`floats` are the `gen::<f64>()` results (the Standard distribution yields
values in `[0, 1)`), `bools` the `gen::<bool>()` results, `deltas` the
`gen_range(-0.1..0.1)` results and `indices` the `gen_range(0..6)`
results. -/
structure RandomSource where
  floats : ℕ → Fp
  bools : ℕ → Bool
  deltas : ℕ → Fp
  indices : ℕ → Fin 6

/-- Per-stream positions of the next unread draw. -/
structure RandomCounters where
  fc : ℕ
  bc : ℕ
  dc : ℕ
  ic : ℕ
deriving DecidableEq

/-- The fixed replacement symbols of the Sym mutation arm of `evolve`. -/
def mutationSymbols : List String := ["🌀", "🎭", "🧬", "🌟", "💫", "🔮"]

/-- `LambdaEngine::evolve` with the ambient thread rng made explicit as a
source of draws plus stream counters.  A single Bernoulli trial
(`gen::<f64>() < mutation_rate`) decides whether any mutation happens; a
Muse perturbs its resonance by a delta clamped into `[0, 1]` before
rescaling, a Sym is replaced by one of six fixed symbols, an App evolves
exactly one side at half the rate, and every other variant is returned
unchanged. -/
def evolve (src : RandomSource) (ctr : RandomCounters) (expr : Expr)
    (mutation_rate : Fp) : Expr × RandomCounters :=
  let u := src.floats ctr.fc
  let ctr1 : RandomCounters := { ctr with fc := ctr.fc + 1 }
  if flt u mutation_rate then
    match expr with
    | .Muse name resonance =>
        let δ := src.deltas ctr1.dc
        let newResonanceF := fclamp (fadd (fdiv (fofNat resonance) lit1000) δ) ⟨0, 1⟩ lit1
        (.Muse name (toU32 (fmul newResonanceF lit1000)), { ctr1 with dc := ctr1.dc + 1 })
    | .Sym _ =>
        let i := src.indices ctr1.ic
        (.Sym (mutationSymbols.get (Fin.cast (by decide) i)), { ctr1 with ic := ctr1.ic + 1 })
    | .App left right =>
        let b := src.bools ctr1.bc
        let ctr2 : RandomCounters := { ctr1 with bc := ctr1.bc + 1 }
        if b then
          match evolve src ctr2 left (fdiv mutation_rate ⟨2, 1⟩) with
          | (evolvedLeft, ctr3) => (.App evolvedLeft right, ctr3)
        else
          match evolve src ctr2 right (fdiv mutation_rate ⟨2, 1⟩) with
          | (evolvedRight, ctr3) => (.App left evolvedRight, ctr3)
    | _ => (expr, ctr1)
  else (expr, ctr1)

/-! Helper lemmas. -/

/-- Strict binding is the identity. -/
@[simp] theorem natCase_eq {α : Type} (n : ℕ) (f : ℕ → α) : natCase n f = f n := by
  cases n <;> rfl

/-- Strict binding is the identity. -/
@[simp] theorem intCase_eq {α : Type} (i : ℤ) (f : ℤ → α) : intCase i f = f i := by
  cases i <;> rfl

/-- Strict binding is the identity. -/
@[simp] theorem fpCase_eq {α : Type} (x : Fp) (f : Fp → α) : fpCase x f = f x := by
  cases x
  simp [fpCase]

/-- Bounded universal checker, shaped for fast kernel evaluation. -/
def checkRange (f : ℕ → Bool) : ℕ → Bool
  | 0 => true
  | n + 1 => f n && checkRange f n

/-- A successful checkRange run gives the property pointwise. -/
theorem checkRange_spec (f : ℕ → Bool) :
    ∀ n, checkRange f n = true → ∀ r, r < n → f r = true := by
  intro n
  induction n with
  | zero => intro _ r hr; omega
  | succ k ih =>
      intro h r hr
      rw [checkRange, Bool.and_eq_true] at h
      rcases Nat.lt_succ_iff_lt_or_eq.mp hr with h2 | h2
      · exact ih h.2 r h2
      · subst h2; exact h.1

/-- Kernel evaluation of the standalone-Muse step on every resonance below
1000: the step adds one except at the float-truncation fixed points 9
and 13. -/
theorem bare_chk :
    checkRange (fun r => (museBareStep r == some (r + 1)) || (r == 9) || (r == 13)) 1000
      = true := by rfl

/-- Kernel evaluation: the Muse-application resonance stays at most 1010
for every input resonance at most 1000. -/
theorem app_chk : checkRange (fun r => museAppRes r ≤ 1010) 1001 = true := by rfl

/-- Kernel evaluation: when the standalone-Muse step fires on a resonance
at most 1000, the new resonance is still at most 1000. -/
theorem bare_le_chk :
    checkRange (fun r => (museBareStep r).getD 0 ≤ 1000) 1001 = true := by rfl

/-- The standalone-Muse step adds one to any resonance below 1000 other
than the two float-truncation fixed points. -/
theorem museBareStep_eq (r : ℕ) (h1 : r < 1000) (h2 : r ≠ 9) (h3 : r ≠ 13) :
    museBareStep r = some (r + 1) := by
  have h := checkRange_spec _ 1000 bare_chk r h1
  simp only [Bool.or_eq_true, beq_iff_eq] at h
  rcases h with (h | h) | h
  · exact h
  · exact absurd h h2
  · exact absurd h h3

/-- The Muse-application resonance is at most 1010 when the input
resonance is at most 1000. -/
theorem museAppRes_le (r : ℕ) (h : r ≤ 1000) : museAppRes r ≤ 1010 := by
  have h2 := checkRange_spec _ 1001 app_chk r (by omega)
  simpa using h2

/-- A fired standalone-Muse step keeps the resonance at most 1000 when the
input resonance is at most 1000. -/
theorem museBareStep_le (r : ℕ) (h : r ≤ 1000) :
    ∀ v, museBareStep r = some v → v ≤ 1000 := by
  intro v hv
  have h2 := checkRange_spec _ 1001 bare_le_chk r (by omega)
  rw [hv] at h2
  simpa using h2

theorem log2step_le {n acc : ℕ} (w : ℕ) (h : 2 ^ acc ≤ n) : 2 ^ log2step n acc w ≤ n := by
  unfold log2step
  split
  · assumption
  · exact h

theorem log2bin_le {n : ℕ} (h : 1 ≤ n) : 2 ^ log2bin n ≤ n := by
  have h0 : 2 ^ 0 ≤ n := by simpa using h
  unfold log2bin
  simp only [natCase_eq]
  exact log2step_le 1 (log2step_le 2 (log2step_le 4 (log2step_le 8 (log2step_le 16
    (log2step_le 32 (log2step_le 64 (log2step_le 128 h0)))))))

theorem one_le_roundPos (a b : ℕ) (hb : 0 < b) (hba : b ≤ a) (ha : a < 2 ^ 50) :
    ((roundPos a b).den : ℤ) ≤ (roundPos a b).num := by
  have hx1 : 1 ≤ a * 2 ^ 200 / b := by
    rw [Nat.le_div_iff_mul_le hb]
    calc 1 * b = b := one_mul b
    _ ≤ a := hba
    _ ≤ a * 2 ^ 200 := Nat.le_mul_of_pos_right a (by positivity)
  have hxlt : a * 2 ^ 200 / b < 2 ^ 251 := by
    calc a * 2 ^ 200 / b ≤ a * 2 ^ 200 := Nat.div_le_self _ _
    _ < 2 ^ 50 * 2 ^ 200 := by
        exact Nat.mul_lt_mul_of_lt_of_le ha (le_refl _) (by positivity)
    _ ≤ 2 ^ 251 := by norm_num
  set l := log2bin (a * 2 ^ 200 / b) with hldef
  have hl_le : 2 ^ l ≤ a * 2 ^ 200 / b := log2bin_le hx1
  have hl_lt : l < 251 := by
    by_contra hcon
    push_neg at hcon
    have : (2 : ℕ) ^ 251 ≤ 2 ^ l := Nat.pow_le_pow_right (by norm_num) hcon
    omega
  have he : rneExp a b = (l : ℤ) - 200 := by
    simp [rneExp, hldef]
  have hstoNat : ((52 : ℤ) - ((l : ℤ) - 200)).toNat = 252 - l := by omega
  have hnegs : (-((52 : ℤ) - ((l : ℤ) - 200))).toNat = 0 := by omega
  have hm0 : 2 ^ (252 - l) ≤ a * 2 ^ (252 - l) / b := by
    rw [Nat.le_div_iff_mul_le hb]
    calc 2 ^ (252 - l) * b ≤ 2 ^ (252 - l) * a := Nat.mul_le_mul_left _ hba
    _ = a * 2 ^ (252 - l) := Nat.mul_comm _ _
  have hrne : rnePosME a b =
      (if 2 * (a * 2 ^ (252 - l) % b) < b then a * 2 ^ (252 - l) / b
       else if b < 2 * (a * 2 ^ (252 - l) % b) then a * 2 ^ (252 - l) / b + 1
       else if (a * 2 ^ (252 - l) / b) % 2 = 0 then a * 2 ^ (252 - l) / b
       else a * 2 ^ (252 - l) / b + 1, (l : ℤ) - 200) := by
    rw [rnePosME]
    simp only [intCase_eq, natCase_eq, he, hstoNat, hnegs]
    norm_num
  have hk : ((l : ℤ) - 200) - 52 = -(((252 - l : ℕ) : ℤ)) := by omega
  have hkneg : ¬ (0 : ℤ) ≤ (l : ℤ) - 200 - 52 := by omega
  rw [roundPos, hrne]
  simp only [natCase_eq, intCase_eq, dyadic, if_neg hkneg]
  have htn : ((-((l : ℤ) - 200 - 52)).toNat) = 252 - l := by omega
  rw [htn]
  split_ifs with h1 h2 h3
  · exact_mod_cast hm0
  · exact_mod_cast Nat.le_succ_of_le hm0
  · exact_mod_cast hm0
  · exact_mod_cast Nat.le_succ_of_le hm0

theorem museBareStep_none (r : ℕ) (h1 : 1000 ≤ r) (h2 : r < 2 ^ 32) :
    museBareStep r = none := by
  have key := one_le_roundPos r 1000 (by norm_num) h1 (lt_trans h2 (by norm_num))
  have hr0 : ¬ ((r : ℤ) = 0) := by omega
  have hrpos : (0 : ℤ) < (r : ℤ) := by omega
  have hdiv : fdiv (fofNat r) lit1000 = roundPos r 1000 := by
    rw [fdiv]
    simp only [fpCase_eq, fofNat, lit1000]
    norm_num
    rw [flF]
    simp only [intCase_eq, if_neg hr0, if_pos hrpos]
    rfl
  rw [museBareStep]
  simp only [fpCase_eq, hdiv, flt, lit1]
  rw [if_neg]
  simp only [decide_eq_true_eq, not_lt]
  push_cast
  omega
/-- Equations of museLeB, stated per constructor. -/
@[simp] theorem museLeB_Var (b : ℕ) (n : String) : museLeB b (.Var n) = true := rfl

@[simp] theorem museLeB_Lambda (b : ℕ) (v : String) (e : Expr) :
    museLeB b (.Lambda v e) = museLeB b e := rfl

@[simp] theorem museLeB_App (b : ℕ) (l r : Expr) :
    museLeB b (.App l r) = (museLeB b l && museLeB b r) := rfl

@[simp] theorem museLeB_Sym (b : ℕ) (s : String) : museLeB b (.Sym s) = true := rfl

@[simp] theorem museLeB_S (b : ℕ) : museLeB b .S = true := rfl

@[simp] theorem museLeB_K (b : ℕ) : museLeB b .K = true := rfl

@[simp] theorem museLeB_I (b : ℕ) : museLeB b .I = true := rfl

@[simp] theorem museLeB_Muse (b : ℕ) (n : String) (r : ℕ) :
    museLeB b (.Muse n r) = decide (r ≤ b) := rfl

@[simp] theorem museLeB_Quine (b : ℕ) (e : Expr) :
    museLeB b (.Quine e) = museLeB b e := rfl

@[simp] theorem museLeB_DNA (b : ℕ) (d : List ℕ) : museLeB b (.DNA d) = true := rfl

/-- Raising the bound keeps the Muse bound check true. -/
theorem museLeB_mono {B C : ℕ} (hBC : B ≤ C) :
    ∀ e, museLeB B e = true → museLeB C e = true := by
  intro e
  induction e with
  | Var name => simp [museLeB]
  | Lambda v b ih => simp only [museLeB]; exact ih
  | App l r ihl ihr =>
      simp only [museLeB, Bool.and_eq_true]
      rintro ⟨h1, h2⟩
      exact ⟨ihl h1, ihr h2⟩
  | Sym s => simp [museLeB]
  | S => simp [museLeB]
  | K => simp [museLeB]
  | I => simp [museLeB]
  | Muse name res => simp only [museLeB, decide_eq_true_eq]; omega
  | Quine inner ih => simp only [museLeB]; exact ih
  | DNA d => simp [museLeB]

/-- Substitution preserves the Muse bound check. -/
theorem museLeB_substitute {B : ℕ} (v : String) (repl : Expr)
    (hrepl : museLeB B repl = true) :
    ∀ body, museLeB B body = true → museLeB B (substitute body v repl) = true := by
  intro body
  induction body with
  | Var name =>
      intro h
      rw [substitute]
      split
      · exact hrepl
      · exact h
  | Lambda p b ih =>
      intro h
      rw [substitute]
      split
      · exact h
      · simp only [museLeB] at h ⊢
        exact ih h
  | App l r ihl ihr =>
      intro h
      rw [substitute]
      simp only [museLeB, Bool.and_eq_true] at h ⊢
      exact ⟨ihl h.1, ihr h.2⟩
  | Sym s => intro h; exact h
  | S => intro h; exact h
  | K => intro h; exact h
  | I => intro h; exact h
  | Muse name res => intro h; exact h
  | Quine inner ih => intro h; exact h
  | DNA d => intro h; exact h

/-- The congruence fallback preserves the Muse bound, given that the two
reduced children do. -/
theorem reduceChildren_museLeB (env : Env) {left right t' : Expr}
    (hl : museLeB 1000 left = true) (hr : museLeB 1000 right = true)
    (ihl : ∀ u, museLeB 1000 left = true → beta_reduce env left = some u →
      museLeB 1010 u = true)
    (ihr : ∀ u, museLeB 1000 right = true → beta_reduce env right = some u →
      museLeB 1010 u = true)
    (h : reduceChildren (beta_reduce env left) left (beta_reduce env right) right
      = some t') :
    museLeB 1010 t' = true := by
  cases hbl : beta_reduce env left with
  | some l2 =>
      rw [hbl] at h
      simp only [reduceChildren, Option.some.injEq] at h
      subst h
      simp only [museLeB_App, Bool.and_eq_true]
      exact ⟨ihl l2 hl hbl, museLeB_mono (by omega) right hr⟩
  | none =>
      rw [hbl] at h
      cases hbr : beta_reduce env right with
      | some r2 =>
          rw [hbr] at h
          simp only [reduceChildren, Option.some.injEq] at h
          subst h
          simp only [museLeB_App, Bool.and_eq_true]
          exact ⟨museLeB_mono (by omega) left hl, ihr r2 hr hbr⟩
      | none => rw [hbr] at h; simp [reduceChildren] at h

/-- One step of `beta_reduce` maps a term whose Muse resonances are all at
most 1000 (with an environment whose values satisfy the same bound) to a
term whose Muse resonances are all at most 1010. -/
theorem museLeB_beta_reduce (env : Env)
    (henv : ∀ name v, env name = some v → museLeB 1000 v = true) :
    ∀ t t', museLeB 1000 t = true → beta_reduce env t = some t' →
      museLeB 1010 t' = true := by
  intro t
  induction t with
  | Var name =>
      intro t' ht h
      simp only [beta_reduce] at h
      exact museLeB_mono (by omega) t' (henv name t' h)
  | Lambda v b ih => intro t' ht h; simp only [beta_reduce] at h; exact Option.noConfusion h
  | Sym s => intro t' ht h; simp only [beta_reduce] at h; exact Option.noConfusion h
  | S => intro t' ht h; simp only [beta_reduce] at h; exact Option.noConfusion h
  | K => intro t' ht h; simp only [beta_reduce] at h; exact Option.noConfusion h
  | I => intro t' ht h; simp only [beta_reduce] at h; exact Option.noConfusion h
  | DNA d => intro t' ht h; simp only [beta_reduce] at h; exact Option.noConfusion h
  | Muse name res =>
      intro t' ht h
      simp only [beta_reduce] at h
      cases hm : museBareStep res with
      | none => rw [hm] at h; simp at h
      | some v =>
          rw [hm] at h
          simp only [Option.some.injEq] at h
          subst h
          have hres : res ≤ 1000 := by simpa using ht
          have hv := museBareStep_le res hres v hm
          simp only [museLeB_Muse, decide_eq_true_eq]
          omega
  | Quine inner ih =>
      intro t' ht h
      simp only [beta_reduce, Option.some.injEq] at h
      subst h
      simp only [museLeB_Quine] at ht ⊢
      exact museLeB_mono (by omega) _ ht
  | App left right ihl ihr =>
      intro t' ht h
      rw [museLeB_App, Bool.and_eq_true] at ht
      obtain ⟨hl, hr⟩ := ht
      cases left with
      | Lambda p b =>
          simp only [beta_reduce, Option.some.injEq] at h
          subst h
          have hb : museLeB 1000 b = true := by simpa using hl
          exact museLeB_mono (by omega) _
            (museLeB_substitute p right hr b hb)
      | S =>
          simp only [beta_reduce, Option.some.injEq] at h
          subst h
          simp only [museLeB_App, museLeB_S, museLeB_I, Bool.true_and, Bool.and_true]
          exact museLeB_mono (by omega) right hr
      | K =>
          simp only [beta_reduce, Option.some.injEq] at h
          subst h
          simp only [museLeB_App, museLeB_K, Bool.true_and]
          exact museLeB_mono (by omega) right hr
      | I =>
          simp only [beta_reduce, Option.some.injEq] at h
          subst h
          exact museLeB_mono (by omega) right hr
      | Muse n res =>
          simp only [beta_reduce, Option.some.injEq] at h
          subst h
          have hres : res ≤ 1000 := by simpa using hl
          simp only [museLeB_Muse, decide_eq_true_eq]
          exact museAppRes_le res hres
      | Quine inner =>
          simp only [beta_reduce, Option.some.injEq] at h
          subst h
          simp only [museLeB_Quine] at hl
          simp only [museLeB_Quine, museLeB_App, Bool.and_eq_true]
          exact ⟨museLeB_mono (by omega) inner hl, museLeB_mono (by omega) right hr⟩
      | Var name =>
          simp only [beta_reduce] at h
          exact reduceChildren_museLeB env hl hr ihl ihr h
      | Sym s =>
          simp only [beta_reduce] at h
          exact reduceChildren_museLeB env hl hr ihl ihr h
      | DNA d =>
          simp only [beta_reduce] at h
          exact reduceChildren_museLeB env hl hr ihl ihr h
      | App il ir =>
          cases il with
          | App s f =>
              cases s with
              | S =>
                  simp only [beta_reduce, Option.some.injEq] at h
                  subst h
                  simp only [museLeB_App, museLeB_S, Bool.true_and,
                    Bool.and_eq_true] at hl ⊢
                  exact ⟨⟨museLeB_mono (by omega) f hl.1,
                          museLeB_mono (by omega) right hr⟩,
                        ⟨museLeB_mono (by omega) ir hl.2,
                          museLeB_mono (by omega) right hr⟩⟩
              | Var name =>
                  simp only [beta_reduce] at h
                  exact reduceChildren_museLeB env hl hr ihl ihr h
              | Lambda p b =>
                  simp only [beta_reduce] at h
                  exact reduceChildren_museLeB env hl hr ihl ihr h
              | App a b =>
                  simp only [beta_reduce] at h
                  exact reduceChildren_museLeB env hl hr ihl ihr h
              | Sym s2 =>
                  simp only [beta_reduce] at h
                  exact reduceChildren_museLeB env hl hr ihl ihr h
              | K =>
                  simp only [beta_reduce] at h
                  exact reduceChildren_museLeB env hl hr ihl ihr h
              | I =>
                  simp only [beta_reduce] at h
                  exact reduceChildren_museLeB env hl hr ihl ihr h
              | Muse n res =>
                  simp only [beta_reduce] at h
                  exact reduceChildren_museLeB env hl hr ihl ihr h
              | Quine inner =>
                  simp only [beta_reduce] at h
                  exact reduceChildren_museLeB env hl hr ihl ihr h
              | DNA d =>
                  simp only [beta_reduce] at h
                  exact reduceChildren_museLeB env hl hr ihl ihr h
          | K =>
              simp only [beta_reduce, Option.some.injEq] at h
              subst h
              simp only [museLeB_App, museLeB_K, Bool.true_and] at hl
              exact museLeB_mono (by omega) _ hl
          | Var name =>
              simp only [beta_reduce] at h
              exact reduceChildren_museLeB env hl hr ihl ihr h
          | Lambda p b =>
              simp only [beta_reduce] at h
              exact reduceChildren_museLeB env hl hr ihl ihr h
          | Sym s2 =>
              simp only [beta_reduce] at h
              exact reduceChildren_museLeB env hl hr ihl ihr h
          | S =>
              simp only [beta_reduce] at h
              exact reduceChildren_museLeB env hl hr ihl ihr h
          | I =>
              simp only [beta_reduce] at h
              exact reduceChildren_museLeB env hl hr ihl ihr h
          | Muse n res =>
              simp only [beta_reduce] at h
              exact reduceChildren_museLeB env hl hr ihl ihr h
          | Quine inner =>
              simp only [beta_reduce] at h
              exact reduceChildren_museLeB env hl hr ihl ihr h
          | DNA d =>
              simp only [beta_reduce] at h
              exact reduceChildren_museLeB env hl hr ihl ihr h

/-- The empty environment of a fresh engine. -/
def emptyEnv : Env := fun _ => none

/-- Unfolding of the rewrite iterate. -/
theorem iterN_succ (env : Env) (n : ℕ) (e : Expr) :
    iterN env (n + 1) e = iterN env n ((beta_reduce env e).getD e) := rfl

/-- The standalone-Muse arm of `beta_reduce`, expressed through
`museBareStep`. -/
theorem beta_reduce_Muse (env : Env) (nm : String) (r : ℕ) :
    beta_reduce env (.Muse nm r)
      = Option.map (fun v => Expr.Muse nm v) (museBareStep r) := by
  cases h : museBareStep r <;> simp [beta_reduce, h]

/-- When the one-step rewrite fires at every iterate below the fuel, the
normalize loop runs the full fuel: its final term is the fuel-th iterate
and its count grows by exactly the fuel. -/
theorem normalizeLoop_all_some (env : Env) :
    ∀ (fuel : ℕ) (e : Expr) (count : ℕ) (trace : List Expr),
      (∀ n < fuel, (beta_reduce env (iterN env n e)).isSome) →
      (normalizeLoop env fuel e count trace).1 = iterN env fuel e ∧
      (normalizeLoop env fuel e count trace).2.1 = count + fuel := by
  intro fuel
  induction fuel with
  | zero => intro e count trace _; exact ⟨rfl, rfl⟩
  | succ fuel ih =>
      intro e count trace H
      have h0 : (beta_reduce env e).isSome := by
        have := H 0 (Nat.succ_pos fuel)
        simpa [iterN] using this
      obtain ⟨r, hr⟩ := Option.isSome_iff_exists.mp h0
      have hstep : ∀ n < fuel, (beta_reduce env (iterN env n r)).isSome := by
        intro n hn
        have h2 := H (n + 1) (by omega)
        rw [iterN_succ, hr] at h2
        simpa using h2
      have hloop : normalizeLoop env (fuel + 1) e count trace
          = normalizeLoop env fuel r (count + 1) (trace ++ [r]) := by
        simp only [normalizeLoop, hr]
      rw [hloop]
      obtain ⟨h1, h2⟩ := ih r (count + 1) (trace ++ [r]) hstep
      refine ⟨?_, ?_⟩
      · rw [h1, iterN_succ, hr]
        rfl
      · rw [h2]
        omega

/-- A bare Muse with resonance between 14 and 1000 reaches the saturated
Muse after exactly 1000 - r iterates. -/
theorem muse_reach (env : Env) (nm : String) :
    ∀ k r, 14 ≤ r → r + k = 1000 → iterN env k (.Muse nm r) = .Muse nm 1000 := by
  intro k
  induction k with
  | zero =>
      intro r h14 hsum
      have hr : r = 1000 := by omega
      subst hr
      rfl
  | succ j ih =>
      intro r h14 hsum
      have hred : beta_reduce env (.Muse nm r) = some (.Muse nm (r + 1)) := by
        rw [beta_reduce_Muse, museBareStep_eq r (by omega) (by omega) (by omega)]
        rfl
      rw [iterN_succ, hred]
      simpa using ih (r + 1) (by omega) (by omega)

/-! Claim theorems. -/

/-- C1, counterexample: the term `Application(Muse("m", 1000), Symbol("a"))`
has every Muse resonance in [0, 1000], yet one step of the rewrite (the
Muse-application rule) produces a Muse with resonance 1010, outside
[0, 1000], so the one-step rewrite does not preserve the claimed
invariant. -/
theorem C1_counterexample :
    museLeB 1000 (.App (.Muse "m" 1000) (.Sym "a")) = true ∧
    beta_reduce emptyEnv (.App (.Muse "m" 1000) (.Sym "a"))
      = some (.Muse "m+a" 1010) ∧
    museLeB 1000 (.Muse "m+a" 1010) = false :=
  ⟨by rfl, by rfl, by rfl⟩

/-- C1, amended: one step of the rewrite maps a term whose Muse resonances
all lie in [0, 1000] (over an environment whose values satisfy the same
bound) to a term whose Muse resonances all lie in [0, 1010]; the
Muse-application rule can overshoot 1000 by up to one percent, and no rule
exceeds 1010 from a valid term. -/
theorem C1_amended (env : Env)
    (henv : ∀ name v, env name = some v → museLeB 1000 v = true)
    (t t' : Expr) (ht : museLeB 1000 t = true)
    (hstep : beta_reduce env t = some t') : museLeB 1010 t' = true :=
  museLeB_beta_reduce env henv t t' ht hstep

/-- C1, witness: the amended bound at the counterexample input. -/
theorem C1_witness : museLeB 1010 (.Muse "m+a" 1010) = true :=
  C1_amended emptyEnv (fun _ v h => Option.noConfusion h)
    (.App (.Muse "m" 1000) (.Sym "a")) (.Muse "m+a" 1010) (by rfl) (by rfl)

/-- C2, counterexample: at resonance 9 (which is in [0, 1000)) the
standalone-Muse step returns Muse("muse", 9) again - the float computation
((9/1000 + 0.001) * 1000) as u32 truncates to 9 - and not Muse("muse", 10)
as the claim requires. -/
theorem C2_counterexample :
    beta_reduce emptyEnv (.Muse "muse" 9) = some (.Muse "muse" 9) ∧
    some (Expr.Muse "muse" 9) ≠ some (Expr.Muse "muse" 10) :=
  ⟨by rfl, by decide⟩

/-- C2, amended: for 0 ≤ r < 1000 with r outside the float-truncation fixed
points 9 and 13, one step on a standalone Muse(n, r) yields Muse(n, r + 1);
at r = 9 and r = 13 the step yields Muse(n, r) unchanged (so such a term
never reaches a fixed point); for r ≥ 1000 (any u32 value) the term is
inert; and a bare Muse with 14 ≤ r ≤ 1000 reaches the inert Muse(n, 1000)
after exactly 1000 - r steps. -/
theorem C2_amended (env : Env) (nm : String) (r : ℕ) :
    (r < 1000 → r ≠ 9 → r ≠ 13 →
      beta_reduce env (.Muse nm r) = some (.Muse nm (r + 1))) ∧
    (r = 9 ∨ r = 13 → beta_reduce env (.Muse nm r) = some (.Muse nm r)) ∧
    (1000 ≤ r → r < 2 ^ 32 → beta_reduce env (.Muse nm r) = none) ∧
    (14 ≤ r → r ≤ 1000 →
      iterN env (1000 - r) (.Muse nm r) = .Muse nm 1000 ∧
      beta_reduce env (.Muse nm 1000) = none) := by
  refine ⟨?_, ?_, ?_, ?_⟩
  · intro h1 h2 h3
    rw [beta_reduce_Muse, museBareStep_eq r h1 h2 h3]
    rfl
  · rintro (h | h) <;> subst h <;> rw [beta_reduce_Muse] <;> rfl
  · intro h1 h2
    rw [beta_reduce_Muse, museBareStep_none r h1 h2]
    rfl
  · intro h1 h2
    refine ⟨muse_reach env nm (1000 - r) r h1 (by omega), ?_⟩
    rw [beta_reduce_Muse]
    rfl

/-- C2, witness: the amended statement instantiated at resonances 14, 9,
1200 and the full 986-step run from 14 to saturation. -/
theorem C2_witness :
    beta_reduce emptyEnv (.Muse "n" 14) = some (.Muse "n" 15) ∧
    beta_reduce emptyEnv (.Muse "n" 9) = some (.Muse "n" 9) ∧
    beta_reduce emptyEnv (.Muse "n" 1200) = none ∧
    iterN emptyEnv 986 (.Muse "n" 14) = .Muse "n" 1000 :=
  ⟨(C2_amended emptyEnv "n" 14).1 (by omega) (by omega) (by omega),
   (C2_amended emptyEnv "n" 9).2.1 (Or.inl rfl),
   (C2_amended emptyEnv "n" 1200).2.2.1 (by omega) (by norm_num),
   ((C2_amended emptyEnv "n" 14).2.2.2 (by omega) (by omega)).1⟩

/-- C3: with the default engine (budget 1000, empty environment),
normalizing S K K x terminates before the budget with final form
Symbol("x") and the trace marked normal form. -/
theorem C3_SKKx :
    (normalize .new (.App (.App (.App .S .K) .K) (.Sym "x"))).final_form
      = .Sym "x" ∧
    (normalize .new (.App (.App (.App .S .K) .K) (.Sym "x"))).is_normal_form
      = true ∧
    (normalize .new (.App (.App (.App .S .K) .K) (.Sym "x"))).step_count
      < 1000 :=
  ⟨by rfl, by rfl, by decide⟩

/-- C4: when the one-step rewrite returns a changed term at every iterate
below the budget, normalize stops after exactly max_steps iterations and
reports is_normal_form = false in the returned trace (normalize is total
in the embedding; no error is possible). -/
theorem C4_budget (engine : LambdaEngine) (e : Expr)
    (H : ∀ n < engine.max_steps,
      (beta_reduce engine.environment (iterN engine.environment n e)).isSome) :
    (normalize engine e).step_count = engine.max_steps ∧
    (normalize engine e).is_normal_form = false := by
  obtain ⟨h1, h2⟩ :=
    normalizeLoop_all_some engine.environment engine.max_steps e 0 [e] H
  have hcount : (normalize engine e).step_count = engine.max_steps := by
    show (normalizeLoop engine.environment engine.max_steps e 0 [e]).2.1
      = engine.max_steps
    omega
  refine ⟨hcount, ?_⟩
  show decide ((normalizeLoop engine.environment engine.max_steps e 0 [e]).2.1
    < engine.max_steps) = false
  rw [show (normalizeLoop engine.environment engine.max_steps e 0 [e]).2.1
    = engine.max_steps from hcount]
  simp

/-- C4, witness: a budget-3 engine on Application(K, Symbol("a")), which
rewrites to itself forever. -/
theorem C4_witness :
    (normalize ⟨3, emptyEnv⟩ (.App .K (.Sym "a"))).step_count = 3 ∧
    (normalize ⟨3, emptyEnv⟩ (.App .K (.Sym "a"))).is_normal_form = false :=
  C4_budget ⟨3, emptyEnv⟩ (.App .K (.Sym "a")) (by decide)

/-- C5: for any inert term t the rewrite maps Application(K, t) to the
structurally identical Application(K, t), counted as a change, and the
default engine therefore burns its whole budget on
Application(K, Symbol("a")), returning step_count 1000, not normal form,
and the unchanged final term. -/
theorem C5_K_loop :
    (∀ (env : Env) (t : Expr), beta_reduce env t = none →
      beta_reduce env (.App .K t) = some (.App .K t)) ∧
    (normalize .new (.App .K (.Sym "a"))).step_count = 1000 ∧
    (normalize .new (.App .K (.Sym "a"))).final_form = .App .K (.Sym "a") ∧
    (normalize .new (.App .K (.Sym "a"))).is_normal_form = false :=
  ⟨fun _ _ _ => rfl, by rfl, by rfl, by rfl⟩

/-- C5, witness: the K-argument rule applied to the inert Symbol("a"). -/
theorem C5_witness :
    beta_reduce emptyEnv (.App .K (.Sym "a")) = some (.App .K (.Sym "a")) :=
  C5_K_loop.1 emptyEnv (.Sym "a") rfl

/-- C6: substitute replaces free occurrences by name equality, is blocked
exactly when the abstraction parameter equals the substituted name, does
no alpha-renaming, and on the documented example captures the substituted
variable: substitute(Abstraction("y", Variable("x")), "x", Variable("y"))
= Abstraction("y", Variable("y")). -/
theorem C6_substitution :
    substitute (.Lambda "y" (.Var "x")) "x" (.Var "y")
      = .Lambda "y" (.Var "y") ∧
    (∀ (v : String) (repl : Expr), substitute (.Var v) v repl = repl) ∧
    (∀ (n v : String) (repl : Expr), n ≠ v →
      substitute (.Var n) v repl = .Var n) ∧
    (∀ (p : String) (b repl : Expr),
      substitute (.Lambda p b) p repl = .Lambda p b) ∧
    (∀ (p v : String) (b repl : Expr), p ≠ v →
      substitute (.Lambda p b) v repl = .Lambda p (substitute b v repl)) ∧
    (∀ (l r : Expr) (v : String) (repl : Expr),
      substitute (.App l r) v repl
        = .App (substitute l v repl) (substitute r v repl)) := by
  refine ⟨by rfl, ?_, ?_, ?_, ?_, ?_⟩
  · intro v repl; simp [substitute]
  · intro n v repl h; simp [substitute, h]
  · intro p b repl; simp [substitute]
  · intro p v b repl h; simp [substitute, h]
  · intro l r v repl; rfl

/-- C6, witness: the substitution laws at concrete inputs, including a
discharged shadowing-free side condition. -/
theorem C6_witness :
    substitute (.Var "a") "b" (.Sym "s") = .Var "a" ∧
    substitute (.Lambda "p" (.Var "x")) "x" (.Var "q")
      = .Lambda "p" (substitute (.Var "x") "x" (.Var "q")) :=
  ⟨C6_substitution.2.2.1 "a" "b" (.Sym "s") (by decide),
   C6_substitution.2.2.2.2.1 "p" "x" (.Var "x") (.Var "q") (by decide)⟩

/-- C7: create_quine(seed) is exactly the Quine wrapper around the
self-application combinator applied to an abstraction wrapping the seed
symbol. -/
theorem C7_create_quine (seed : String) :
    create_quine seed
      = .Quine (.App (.Lambda "x" (.App (.Var "x") (.Var "x")))
          (.Lambda "y" (.App (.Sym seed) (.Var "y")))) := rfl

/-- C8: with mutation rate 0.0 the Bernoulli draw (a value in [0, 1), hence
with nonnegative numerator) can never be below the rate, so evolve returns
its input unchanged for every term and every outcome of the random
source. -/
theorem C8_evolve_zero (src : RandomSource) (ctr : RandomCounters) (t : Expr)
    (h : 0 ≤ (src.floats ctr.fc).num) :
    (evolve src ctr t ⟨0, 1⟩).1 = t := by
  have hcond : flt (src.floats ctr.fc) ⟨0, 1⟩ = false := by
    simp only [flt, decide_eq_false_iff_not, not_lt]
    simpa using h
  unfold evolve
  simp [hcond]

/-- C8, witness: evolve at rate zero on Symbol("a") with a concrete random
source drawing one half. -/
theorem C8_witness :
    (evolve ⟨fun _ => ⟨1, 2⟩, fun _ => true, fun _ => ⟨0, 1⟩, fun _ => 0⟩
      ⟨0, 0, 0, 0⟩ (.Sym "a") ⟨0, 1⟩).1 = .Sym "a" :=
  C8_evolve_zero _ _ _ (by decide)

/-- C9, counterexample: the renderer prints Quine(Symbol("s")) as
"🌀Q(s)", with a leading emoji, not as the claimed "Q(s)". -/
theorem C9_counterexample :
    display (.Quine (.Sym "s")) = "🌀Q(s)" ∧ "🌀Q(s)" ≠ "Q(s)" :=
  ⟨rfl, by decide⟩

/-- C9, amended: the renderer prints Application(f, x) as "(f x)" and
Abstraction(v, b) as "λv.b" as claimed, but Muse(name, r) prints as
"🎭name[r]" with the raw integer resonance (the precision flag the source
passes is ignored on integers) and Quine(inner) prints as "🌀Q(inner)",
both with a leading emoji. -/
theorem C9_amended :
    (∀ f x : Expr, display (.App f x)
      = "(" ++ display f ++ " " ++ display x ++ ")") ∧
    (∀ (v : String) (b : Expr), display (.Lambda v b)
      = "λ" ++ v ++ "." ++ display b) ∧
    (∀ (n : String) (r : ℕ), display (.Muse n r)
      = "🎭" ++ n ++ "[" ++ toString r ++ "]") ∧
    (∀ inner : Expr, display (.Quine inner)
      = "🌀Q(" ++ display inner ++ ")") :=
  ⟨fun _ _ => rfl, fun _ _ => rfl, fun _ _ => rfl, fun _ => rfl⟩

/-- C10: when the term reaches a normal form at exactly the budget (the
rewrite fires at every iterate below max_steps and the max_steps-th
iterate is inert), normalize still reports is_normal_form = false - the
flag is step_count < max_steps, not a test of the final term, which
indeed allows no further rewrite. -/
theorem C10_flag (engine : LambdaEngine) (e : Expr)
    (H : ∀ n < engine.max_steps,
      (beta_reduce engine.environment (iterN engine.environment n e)).isSome)
    (H2 : beta_reduce engine.environment
      (iterN engine.environment engine.max_steps e) = none) :
    (normalize engine e).is_normal_form = false ∧
    beta_reduce engine.environment ((normalize engine e).final_form) = none ∧
    (normalize engine e).step_count = engine.max_steps := by
  obtain ⟨h1, h2⟩ :=
    normalizeLoop_all_some engine.environment engine.max_steps e 0 [e] H
  have hcount : (normalize engine e).step_count = engine.max_steps := by
    show (normalizeLoop engine.environment engine.max_steps e 0 [e]).2.1
      = engine.max_steps
    omega
  refine ⟨?_, ?_, hcount⟩
  · show decide ((normalizeLoop engine.environment engine.max_steps e 0 [e]).2.1
      < engine.max_steps) = false
    rw [show (normalizeLoop engine.environment engine.max_steps e 0 [e]).2.1
      = engine.max_steps from hcount]
    simp
  · show beta_reduce engine.environment
      ((normalizeLoop engine.environment engine.max_steps e 0 [e]).1) = none
    rw [h1]
    exact H2

/-- C10, witness: a budget-1 engine on Application(I, Symbol("z")), which
reaches the inert Symbol("z") in exactly one step yet is reported not in
normal form. -/
theorem C10_witness :
    (normalize ⟨1, emptyEnv⟩ (.App .I (.Sym "z"))).is_normal_form = false ∧
    beta_reduce emptyEnv
      ((normalize ⟨1, emptyEnv⟩ (.App .I (.Sym "z"))).final_form) = none ∧
    (normalize ⟨1, emptyEnv⟩ (.App .I (.Sym "z"))).step_count = 1 :=
  C10_flag ⟨1, emptyEnv⟩ (.App .I (.Sym "z")) (by decide) (by rfl)

end MetaMeme
